import Mathlib

/-!
Verification of the InfoFinder hybrid retrieval engine.

Shallow embedding of the retrieval core:
* `services/hybrid_search.py` — RRF fusion, hybrid search, multi-query search
* `services/keyword_search.py` — tokenizer, BM25 post-processing, index state
* `services/reranker.py` — cross-encoder rerank wrapper
* `services/llm.py` — query-expansion response parsing
Floating-point scores are modelled as rationals; the external collaborators
(vector index, BM25 scorer, cross-encoder, LLM) are abstract functions.
-/

namespace InfoFinder

/-- A document chunk (`models/schemas.py`: only the fields the retrieval
core reads — the id used as fusion key and the content fed to tokenizer
and cross-encoder). -/
structure Document where
  id : String
  content : String
  deriving DecidableEq, Repr

/-- A search result (`models/schemas.py`): a document with a relevance
score and a provenance tag. -/
structure SearchResult where
  document : Document
  score : ℚ
  searchType : String
  deriving DecidableEq, Repr

/-- Placeholder document used to totalize list indexing; all indexing in
theorems happens at indices proved in range. -/
def defaultDoc : Document := ⟨"", ""⟩

/-- Python truthy defaulting `top_k = top_k or config.TOP_K_RETRIEVAL`
(`hybrid_search.py` line 89, `keyword_search.py` line 152): `None` and `0`
both fall back to the default 20. -/
def effTopK (topK : Option Nat) : Nat :=
  match topK with
  | none => 20
  | some n => if n = 0 then 20 else n

/-- Python truthy defaulting `top_k = top_k or config.TOP_K_RERANK`
(`reranker.py` line 56): `None` and `0` both fall back to the default 5. -/
def effTopKRerank (topK : Option Nat) : Nat :=
  match topK with
  | none => 5
  | some n => if n = 0 then 5 else n

/-- Stable insertion of `x` into a list sorted descending by `key`;
`x` is placed before the first element whose key is ≤ `key x`, so among
equal keys earlier-inserted elements stay first — the stability contract
of Python `sorted(..., reverse=True)`. -/
def insertByDesc (key : α → ℚ) (x : α) : List α → List α
  | [] => [x]
  | y :: ys => if key y ≤ key x then x :: y :: ys else y :: insertByDesc key x ys

/-- Stable sort, descending by `key`: the model of Python
`sorted(items, key=key, reverse=True)`. -/
def sortByDesc (key : α → ℚ) : List α → List α
  | [] => []
  | x :: xs => insertByDesc key x (sortByDesc key xs)

theorem insertByDesc_perm (key : α → ℚ) (x : α) (l : List α) :
    List.Perm (insertByDesc key x l) (x :: l) := by
  induction l with
  | nil => simp [insertByDesc]
  | cons y ys ih =>
    simp only [insertByDesc]
    by_cases h : key y ≤ key x
    · simp [h]
    · simp only [h, if_false]
      exact ((ih.cons y).trans (List.Perm.swap x y ys))

theorem sortByDesc_perm (key : α → ℚ) (l : List α) :
    List.Perm (sortByDesc key l) l := by
  induction l with
  | nil => simp [sortByDesc]
  | cons x xs ih =>
    exact (insertByDesc_perm key x (sortByDesc key xs)).trans (ih.cons x)

theorem insertByDesc_pairwise (key : α → ℚ) (x : α) (l : List α)
    (hl : l.Pairwise (fun a b => key b ≤ key a)) :
    (insertByDesc key x l).Pairwise (fun a b => key b ≤ key a) := by
  induction l with
  | nil => simp [insertByDesc]
  | cons y ys ih =>
    rcases List.pairwise_cons.mp hl with ⟨hy, hys⟩
    simp only [insertByDesc]
    by_cases h : key y ≤ key x
    · rw [if_pos h]
      refine List.pairwise_cons.mpr ⟨?_, hl⟩
      intro z hz
      rcases List.mem_cons.mp hz with rfl | hz
      · exact h
      · exact le_trans (hy z hz) h
    · rw [if_neg h]
      refine List.pairwise_cons.mpr ⟨?_, ih hys⟩
      intro z hz
      have hz' := (insertByDesc_perm key x ys).mem_iff.mp hz
      rcases List.mem_cons.mp hz' with rfl | hz'
      · exact le_of_lt (lt_of_not_le h)
      · exact hy z hz'

theorem sortByDesc_pairwise (key : α → ℚ) (l : List α) :
    (sortByDesc key l).Pairwise (fun a b => key b ≤ key a) := by
  induction l with
  | nil => simp [sortByDesc]
  | cons x xs ih => exact insertByDesc_pairwise key x _ ih

/-- The head of a descending sort has maximal key among the list. -/
theorem sortByDesc_head_max (key : α → ℚ) (l : List α) (x : α) (rest : List α)
    (hsort : sortByDesc key l = x :: rest) :
    ∀ y ∈ l, key y ≤ key x := by
  intro y hy
  have hmem : y ∈ sortByDesc key l := (sortByDesc_perm key l).symm.subset hy
  rw [hsort] at hmem
  rcases List.mem_cons.mp hmem with rfl | hm
  · exact le_refl _
  · have hp := sortByDesc_pairwise key l
    rw [hsort] at hp
    exact (List.pairwise_cons.mp hp).1 y hm

theorem sortByDesc_ne_nil (key : α → ℚ) (l : List α) (hl : l ≠ []) :
    sortByDesc key l ≠ [] := by
  intro h
  have hperm := sortByDesc_perm key l
  rw [h] at hperm
  exact hl hperm.symm.eq_nil

/-- One entry of the fusion state of `HybridSearchService._rrf_fusion`
(`hybrid_search.py` lines 136-151): the pair of Python dicts
`rrf_scores` (defaultdict accumulating a ℚ per id) and `doc_map`
(last-written document per id), fused into a single association list
kept in first-insertion order — exactly the iteration order of the
Python dicts. -/
structure Entry where
  id : String
  score : ℚ
  doc : Document
  deriving DecidableEq, Repr

/-- One loop step of `_rrf_fusion`: `rrf_scores[doc_id] += s` (missing key
starts at 0) together with `doc_map[doc_id] = d`. Existing keys keep their
position; a new key is appended — Python dict insertion-order semantics. -/
def upsert (m : List Entry) (id : String) (s : ℚ) (d : Document) : List Entry :=
  match m with
  | [] => [⟨id, s, d⟩]
  | e :: rest => if e.id = id then ⟨e.id, e.score + s, d⟩ :: rest else e :: upsert rest id s d

/-- The loop `for rank, result in enumerate(results, start=r)` of
`_rrf_fusion`: each result at 0-based offset `j` contributes
`w / (k + (r + j))` to its document's running score. Called with `r = 1`
this is `enumerate(results, start=1)`, i.e. 1-based ranks. -/
def addListFrom (w k : ℚ) : Nat → List SearchResult → List Entry → List Entry
  | _, [], m => m
  | r, res :: rest, m =>
    addListFrom w k (r + 1) rest (upsert m res.document.id (w * (1 / (k + (r : ℚ)))) res.document)

/-- The fusion state after both loops of `_rrf_fusion`: the vector list is
processed first (weight `wv`), then the keyword list (weight `wk`), both
with 1-based ranks and RRF constant `k`. -/
def rrfEntries (wv wk k : ℚ) (vec kw : List SearchResult) : List Entry :=
  addListFrom wk k 1 kw (addListFrom wv k 1 vec [])

/-- Lookup of a fused score by document id (reading `rrf_scores[doc_id]`). -/
def lookupScore (m : List Entry) (id : String) : Option ℚ :=
  (m.find? (fun e => e.id = id)).map (fun e => e.score)

/-- The fused RRF score `_rrf_fusion` assigns to document `id` given the
two ranked input lists (`none` when `id` appears in neither list). -/
def fusedScore (wv wk k : ℚ) (vec kw : List SearchResult) (id : String) : Option ℚ :=
  lookupScore (rrfEntries wv wk k vec kw) id

/-- `HybridSearchService._rrf_fusion` (`hybrid_search.py` lines 116-169):
accumulate weighted reciprocal-rank scores from both lists, sort ids by
fused score descending (Python `sorted` is stable over dict insertion
order), truncate to `topK` and emit `SearchResult`s tagged "hybrid". -/
def rrfFusion (wv wk k : ℚ) (vec kw : List SearchResult) (topK : Nat) : List SearchResult :=
  ((sortByDesc Entry.score (rrfEntries wv wk k vec kw)).take topK).map
    (fun e => ⟨e.doc, e.score, "hybrid"⟩)

theorem lookupScore_upsert_same (m : List Entry) (id : String) (s : ℚ) (d : Document) :
    lookupScore (upsert m id s d) id = some ((lookupScore m id).getD 0 + s) := by
  induction m with
  | nil => simp [upsert, lookupScore]
  | cons e rest ih =>
    by_cases h : e.id = id
    · simp only [upsert, h, if_true, lookupScore]
      rw [List.find?_cons_of_pos _ (by simp [h]), List.find?_cons_of_pos _ (by simp [h])]
      simp
    · simp only [upsert, h, if_false, lookupScore]
      rw [List.find?_cons_of_neg _ (by simp [h]), List.find?_cons_of_neg _ (by simp [h])]
      simpa [lookupScore] using ih

theorem lookupScore_upsert_ne (m : List Entry) (id id' : String) (s : ℚ) (d : Document)
    (h : id' ≠ id) :
    lookupScore (upsert m id s d) id' = lookupScore m id' := by
  induction m with
  | nil => simp [upsert, lookupScore, List.find?, Ne.symm h]
  | cons e rest ih =>
    by_cases he : e.id = id
    · simp only [upsert, he, if_true, lookupScore]
      rw [List.find?_cons_of_neg _ (by simp [Ne.symm h]),
        List.find?_cons_of_neg _ (by simp [he, Ne.symm h])]
    · simp only [upsert, he, if_false, lookupScore]
      by_cases he' : e.id = id'
      · rw [List.find?_cons_of_pos _ (by simp [he']), List.find?_cons_of_pos _ (by simp [he'])]
      · rw [List.find?_cons_of_neg _ (by simp [he']), List.find?_cons_of_neg _ (by simp [he'])]
        simpa [lookupScore] using ih

theorem lookupScore_addListFrom_not_mem (w k : ℚ) (r : Nat) (results : List SearchResult)
    (m : List Entry) (id : String)
    (hid : id ∉ results.map (fun res => res.document.id)) :
    lookupScore (addListFrom w k r results m) id = lookupScore m id := by
  induction results generalizing r m with
  | nil => simp [addListFrom]
  | cons res rest ih =>
    simp only [List.map_cons, List.mem_cons, not_or] at hid
    simp only [addListFrom]
    rw [ih _ _ hid.2, lookupScore_upsert_ne _ _ _ _ _ hid.1]

theorem lookupScore_addListFrom_mem (w k : ℚ) (r : Nat) (results : List SearchResult)
    (m : List Entry) (j : Nat) (hj : j < results.length)
    (hnd : (results.map (fun res => res.document.id)).Nodup) :
    lookupScore (addListFrom w k r results m) (results.get ⟨j, hj⟩).document.id =
      some ((lookupScore m (results.get ⟨j, hj⟩).document.id).getD 0 +
        w * (1 / (k + ((r + j : Nat) : ℚ)))) := by
  induction results generalizing r m j with
  | nil => exact absurd hj (Nat.not_lt_zero j)
  | cons res rest ih =>
    simp only [List.map_cons, List.nodup_cons] at hnd
    cases j with
    | zero =>
      simp only [List.get, addListFrom]
      rw [lookupScore_addListFrom_not_mem _ _ _ _ _ _ hnd.1,
        lookupScore_upsert_same]
      norm_num
    | succ j' =>
      have hj' : j' < rest.length := Nat.lt_of_succ_lt_succ hj
      simp only [List.get, addListFrom]
      have := ih (r + 1) (upsert m res.document.id (w * (1 / (k + (r : ℚ)))) res.document) j' hj' hnd.2
      rw [this]
      have hne : (rest.get ⟨j', hj'⟩).document.id ≠ res.document.id := by
        intro hcontra
        exact hnd.1 (hcontra ▸ List.mem_map.mpr ⟨rest.get ⟨j', hj'⟩, List.get_mem rest _ _, rfl⟩)
      rw [lookupScore_upsert_ne _ _ _ _ _ hne]
      have harith : ((r + 1 + j' : Nat) : ℚ) = ((r + (j' + 1) : Nat) : ℚ) := by
        push_cast
        ring
      rw [harith]

theorem mem_keys_upsert (m : List Entry) (id x : String) (s : ℚ) (d : Document) :
    x ∈ (upsert m id s d).map Entry.id ↔ x ∈ m.map Entry.id ∨ x = id := by
  induction m with
  | nil => simp [upsert]
  | cons e rest ih =>
    by_cases h : e.id = id
    · subst h
      simp [upsert]
      try tauto
    · simp only [upsert, h, if_false, List.map_cons, List.mem_cons, ih]
      tauto

theorem nodup_keys_upsert (m : List Entry) (id : String) (s : ℚ) (d : Document)
    (hnd : (m.map Entry.id).Nodup) :
    ((upsert m id s d).map Entry.id).Nodup := by
  induction m with
  | nil => simp [upsert]
  | cons e rest ih =>
    simp only [List.map_cons, List.nodup_cons] at hnd
    by_cases h : e.id = id
    · simp only [upsert, h, if_true, List.map_cons, List.nodup_cons]
      exact ⟨h ▸ hnd.1, hnd.2⟩
    · simp only [upsert, h, if_false, List.map_cons, List.nodup_cons]
      refine ⟨?_, ih hnd.2⟩
      intro hcontra
      rcases (mem_keys_upsert rest id e.id s d).mp hcontra with hx | hx
      · exact hnd.1 hx
      · exact h hx

theorem mem_keys_addListFrom (w k : ℚ) (r : Nat) (results : List SearchResult)
    (m : List Entry) (x : String) :
    x ∈ (addListFrom w k r results m).map Entry.id ↔
      x ∈ m.map Entry.id ∨ x ∈ results.map (fun res => res.document.id) := by
  induction results generalizing r m with
  | nil => simp [addListFrom]
  | cons res rest ih =>
    simp only [addListFrom, ih, mem_keys_upsert, List.map_cons, List.mem_cons]
    tauto

theorem nodup_keys_addListFrom (w k : ℚ) (r : Nat) (results : List SearchResult)
    (m : List Entry) (hnd : (m.map Entry.id).Nodup) :
    ((addListFrom w k r results m).map Entry.id).Nodup := by
  induction results generalizing r m with
  | nil => simpa [addListFrom] using hnd
  | cons res rest ih =>
    exact ih _ _ (nodup_keys_upsert _ _ _ _ hnd)

theorem nodup_keys_rrfEntries (wv wk k : ℚ) (vec kw : List SearchResult) :
    ((rrfEntries wv wk k vec kw).map Entry.id).Nodup := by
  exact nodup_keys_addListFrom _ _ _ _ _ (nodup_keys_addListFrom _ _ _ _ _ (by simp))

theorem mem_keys_rrfEntries (wv wk k : ℚ) (vec kw : List SearchResult) (x : String) :
    x ∈ (rrfEntries wv wk k vec kw).map Entry.id ↔
      x ∈ (vec ++ kw).map (fun res => res.document.id) := by
  simp only [rrfEntries, mem_keys_addListFrom, List.map_append, List.mem_append]
  simp

theorem fusedScore_both (wv wk k : ℚ) (vec kw : List SearchResult) (a : String)
    (j1 j2 : Nat)
    (hvnd : (vec.map (fun r => r.document.id)).Nodup)
    (hknd : (kw.map (fun r => r.document.id)).Nodup)
    (hj1 : j1 < vec.length) (hj2 : j2 < kw.length)
    (ha1 : (vec.get ⟨j1, hj1⟩).document.id = a)
    (ha2 : (kw.get ⟨j2, hj2⟩).document.id = a) :
    fusedScore wv wk k vec kw a =
      some (wv * (1 / (k + ((j1 + 1 : Nat) : ℚ))) + wk * (1 / (k + ((j2 + 1 : Nat) : ℚ)))) := by
  unfold fusedScore rrfEntries
  have houter := lookupScore_addListFrom_mem wk k 1 kw (addListFrom wv k 1 vec []) j2 hj2 hknd
  rw [ha2] at houter
  have hinner := lookupScore_addListFrom_mem wv k 1 vec ([] : List Entry) j1 hj1 hvnd
  rw [ha1] at hinner
  rw [houter, hinner]
  have h0 : lookupScore ([] : List Entry) a = none := rfl
  rw [h0]
  simp only [Option.getD_none, Option.getD_some, zero_add]
  congr 1
  have c1 : ((1 + j1 : Nat) : ℚ) = ((j1 + 1 : Nat) : ℚ) := by push_cast; ring
  have c2 : ((1 + j2 : Nat) : ℚ) = ((j2 + 1 : Nat) : ℚ) := by push_cast; ring
  rw [c1, c2]

theorem fusedScore_keyword_only (wv wk k : ℚ) (vec kw : List SearchResult) (b : String)
    (j : Nat)
    (hknd : (kw.map (fun r => r.document.id)).Nodup)
    (hj : j < kw.length)
    (hb : (kw.get ⟨j, hj⟩).document.id = b)
    (hbv : b ∉ vec.map (fun r => r.document.id)) :
    fusedScore wv wk k vec kw b = some (wk * (1 / (k + ((j + 1 : Nat) : ℚ)))) := by
  unfold fusedScore rrfEntries
  have houter := lookupScore_addListFrom_mem wk k 1 kw (addListFrom wv k 1 vec []) j hj hknd
  rw [hb] at houter
  rw [houter, lookupScore_addListFrom_not_mem _ _ _ _ _ _ hbv]
  have h0 : lookupScore ([] : List Entry) b = none := rfl
  rw [h0]
  simp only [Option.getD_none, zero_add]
  congr 2
  push_cast
  ring

/-- C1 (amended): a document present in the vector list at 0-based
position `j1` (1-based rank `r1 = j1 + 1`) and in the keyword list at
position `j2` (rank `r2 = j2 + 1`) receives the fused RRF score
`wv/(k + r1) + wk/(k + r2)`; a document at rank `r1` in only the keyword
list receives `wk/(k + r1)`; and when the two weights are equal and
positive (e.g. the default 0.5/0.5), the both-lists score strictly
exceeds the single-list score. (The original claim asserted the strict
comparison for arbitrary weights; with unequal weights it fails — see the
counterexample.) -/
theorem rrf_score_formula_and_dominance
    (wv wk k : ℚ) (vec kw : List SearchResult) (a b : String) (j1 j2 : Nat)
    (hk : 0 < k)
    (hvnd : (vec.map (fun r => r.document.id)).Nodup)
    (hknd : (kw.map (fun r => r.document.id)).Nodup)
    (hj1 : j1 < vec.length) (hj2 : j2 < kw.length) (hj1k : j1 < kw.length)
    (ha1 : (vec.get ⟨j1, hj1⟩).document.id = a)
    (ha2 : (kw.get ⟨j2, hj2⟩).document.id = a)
    (hb : (kw.get ⟨j1, hj1k⟩).document.id = b)
    (hbv : b ∉ vec.map (fun r => r.document.id)) :
    fusedScore wv wk k vec kw a =
      some (wv * (1 / (k + ((j1 + 1 : Nat) : ℚ))) + wk * (1 / (k + ((j2 + 1 : Nat) : ℚ)))) ∧
    fusedScore wv wk k vec kw b = some (wk * (1 / (k + ((j1 + 1 : Nat) : ℚ)))) ∧
    (wv = wk → 0 < wk →
      wk * (1 / (k + ((j1 + 1 : Nat) : ℚ))) <
        wv * (1 / (k + ((j1 + 1 : Nat) : ℚ))) + wk * (1 / (k + ((j2 + 1 : Nat) : ℚ)))) := by
  refine ⟨fusedScore_both wv wk k vec kw a j1 j2 hvnd hknd hj1 hj2 ha1 ha2,
    fusedScore_keyword_only wv wk k vec kw b j1 hknd hj1k hb hbv, ?_⟩
  intro heq hw
  rw [heq]
  have hpos : (0 : ℚ) < k + ((j2 + 1 : Nat) : ℚ) :=
    add_pos_of_pos_of_nonneg hk (Nat.cast_nonneg _)
  have hterm : (0 : ℚ) < wk * (1 / (k + ((j2 + 1 : Nat) : ℚ))) := by
    apply mul_pos hw
    rw [one_div]
    exact inv_pos.mpr hpos
  exact lt_add_of_pos_right _ hterm

/-- C1 counterexample to the claim as stated: with normalized weights
`wv = 1/10`, `wk = 9/10` and RRF constant `k = 1 > 0`, document "A" sits
at rank 1 in the vector list and rank 2 in the keyword list (fused score
`7/20`), while document "B" sits at rank `r1 = 1` in only the keyword
list (fused score `9/20`): the both-lists score does NOT exceed the
single-list score. -/
theorem rrf_dominance_counterexample :
    fusedScore (1 / 10) (9 / 10) 1
      [⟨⟨"A", "a"⟩, 1, "vector"⟩]
      [⟨⟨"B", "b"⟩, 1, "keyword"⟩, ⟨⟨"A", "a"⟩, 1 / 2, "keyword"⟩] "A" = some (7 / 20) ∧
    fusedScore (1 / 10) (9 / 10) 1
      [⟨⟨"A", "a"⟩, 1, "vector"⟩]
      [⟨⟨"B", "b"⟩, 1, "keyword"⟩, ⟨⟨"A", "a"⟩, 1 / 2, "keyword"⟩] "B" = some (9 / 20) ∧
    (7 / 20 : ℚ) < 9 / 20 := by
  refine ⟨?_, ?_, by norm_num⟩
  · have h := fusedScore_both (1 / 10) (9 / 10) 1
      [⟨⟨"A", "a"⟩, 1, "vector"⟩]
      [⟨⟨"B", "b"⟩, 1, "keyword"⟩, ⟨⟨"A", "a"⟩, 1 / 2, "keyword"⟩] "A" 0 1
      (by decide) (by decide) (by decide) (by decide) rfl rfl
    rw [h]
    norm_num
  · have h := fusedScore_keyword_only (1 / 10) (9 / 10) 1
      [⟨⟨"A", "a"⟩, 1, "vector"⟩]
      [⟨⟨"B", "b"⟩, 1, "keyword"⟩, ⟨⟨"A", "a"⟩, 1 / 2, "keyword"⟩] "B" 0
      (by decide) (by decide) rfl (by decide)
    rw [h]
    norm_num

/-- C1 witness: the amended theorem applied at the default equal weights
`1/2`/`1/2`, `k = 60`, with "A" at vector rank 1 and keyword rank 2 and
"B" at keyword rank 1 only. -/
theorem rrf_score_formula_and_dominance_witness :
    fusedScore (1 / 2) (1 / 2) 60
      [⟨⟨"A", "a"⟩, 1, "vector"⟩]
      [⟨⟨"B", "b"⟩, 1, "keyword"⟩, ⟨⟨"A", "a"⟩, 1 / 2, "keyword"⟩] "A" =
        some ((1 / 2) * (1 / 61) + (1 / 2) * (1 / 62)) ∧
    fusedScore (1 / 2) (1 / 2) 60
      [⟨⟨"A", "a"⟩, 1, "vector"⟩]
      [⟨⟨"B", "b"⟩, 1, "keyword"⟩, ⟨⟨"A", "a"⟩, 1 / 2, "keyword"⟩] "B" =
        some ((1 / 2) * (1 / 61)) ∧
    ((1 / 2) * (1 / 61) : ℚ) < (1 / 2) * (1 / 61) + (1 / 2) * (1 / 62) := by
  have h := rrf_score_formula_and_dominance (1 / 2) (1 / 2) 60
    [⟨⟨"A", "a"⟩, 1, "vector"⟩]
    [⟨⟨"B", "b"⟩, 1, "keyword"⟩, ⟨⟨"A", "a"⟩, 1 / 2, "keyword"⟩] "A" "B" 0 1
    (by norm_num) (by decide) (by decide) (by decide) (by decide) (by decide)
    rfl rfl rfl (by decide)
  refine ⟨?_, ?_, ?_⟩
  · have h1 := h.1
    norm_num at h1 ⊢
    exact h1
  · have h2 := h.2.1
    norm_num at h2 ⊢
    exact h2
  · have h3 := h.2.2 rfl (by norm_num)
    norm_num at h3 ⊢

/-- Every fusion-state entry stores under key `id` a document whose own id
is `id` (in `_rrf_fusion`, `rrf_scores` and `doc_map` are always written
at key `result.document.id` with value `result.document`). -/
theorem doc_id_upsert (m : List Entry) (s : ℚ) (d : Document)
    (hm : ∀ e ∈ m, e.doc.id = e.id) :
    ∀ e ∈ upsert m d.id s d, e.doc.id = e.id := by
  induction m with
  | nil =>
    intro e he
    simp only [upsert, List.mem_singleton] at he
    subst he
    rfl
  | cons e0 rest ih =>
    intro e he
    by_cases h : e0.id = d.id
    · simp only [upsert, h, if_true, List.mem_cons] at he
      rcases he with rfl | he
      · simp [h.symm]
      · exact hm e (List.mem_cons_of_mem _ he)
    · simp only [upsert, h, if_false, List.mem_cons] at he
      rcases he with rfl | he
      · exact hm e (List.mem_cons_self _ _)
      · exact ih (fun e' he' => hm e' (List.mem_cons_of_mem _ he')) e he

theorem doc_id_addListFrom (w k : ℚ) (r : Nat) (results : List SearchResult) (m : List Entry)
    (hm : ∀ e ∈ m, e.doc.id = e.id) :
    ∀ e ∈ addListFrom w k r results m, e.doc.id = e.id := by
  induction results generalizing r m with
  | nil => simpa [addListFrom] using hm
  | cons res rest ih =>
    exact ih _ _ (doc_id_upsert m _ res.document hm)

theorem doc_id_rrfEntries (wv wk k : ℚ) (vec kw : List SearchResult) :
    ∀ e ∈ rrfEntries wv wk k vec kw, e.doc.id = e.id := by
  exact doc_id_addListFrom _ _ _ _ _ (doc_id_addListFrom _ _ _ _ _ (by simp))

/-- The keys of the fusion state are a permutation of the deduplicated
input ids. -/
theorem keys_rrfEntries_perm_dedup (wv wk k : ℚ) (vec kw : List SearchResult) :
    List.Perm ((rrfEntries wv wk k vec kw).map Entry.id)
      ((vec ++ kw).map (fun r => r.document.id)).dedup := by
  apply List.perm_of_nodup_nodup_toFinset_eq (nodup_keys_rrfEntries wv wk k vec kw)
    (List.nodup_dedup _)
  ext x
  simp only [List.mem_toFinset, List.mem_dedup]
  exact mem_keys_rrfEntries wv wk k vec kw x

/-- C2: for `topK` at least the number of distinct document ids in the two
input lists, `_rrf_fusion` returns every distinct id exactly once, ordered
by fused score descending; fusing two empty lists yields the empty list;
and the output never exceeds `topK` results. -/
theorem rrf_fusion_complete_sorted (wv wk k : ℚ) (vec kw : List SearchResult) (topK : Nat) :
    ((((vec ++ kw).map (fun r => r.document.id)).dedup.length ≤ topK →
      ((rrfFusion wv wk k vec kw topK).map (fun r => r.document.id)).Nodup ∧
      (∀ x, x ∈ (rrfFusion wv wk k vec kw topK).map (fun r => r.document.id) ↔
        x ∈ (vec ++ kw).map (fun r => r.document.id)) ∧
      (rrfFusion wv wk k vec kw topK).Pairwise (fun a b => b.score ≤ a.score)) ∧
    (vec = [] → kw = [] → rrfFusion wv wk k vec kw topK = []) ∧
    (rrfFusion wv wk k vec kw topK).length ≤ topK) := by
  refine ⟨?_, ?_, ?_⟩
  · intro htop
    have hlen : (rrfEntries wv wk k vec kw).length ≤ topK := by
      have h1 := (keys_rrfEntries_perm_dedup wv wk k vec kw).length_eq
      rw [List.length_map] at h1
      omega
    have hslen : (sortByDesc Entry.score (rrfEntries wv wk k vec kw)).length ≤ topK := by
      rw [(sortByDesc_perm Entry.score _).length_eq]
      exact hlen
    have htake : (sortByDesc Entry.score (rrfEntries wv wk k vec kw)).take topK =
        sortByDesc Entry.score (rrfEntries wv wk k vec kw) :=
      List.take_of_length_le hslen
    have hids : (rrfFusion wv wk k vec kw topK).map (fun r => r.document.id) =
        (sortByDesc Entry.score (rrfEntries wv wk k vec kw)).map Entry.id := by
      unfold rrfFusion
      rw [htake, List.map_map]
      apply List.map_congr_left
      intro e he
      have hmem : e ∈ rrfEntries wv wk k vec kw :=
        (sortByDesc_perm Entry.score _).subset he
      exact doc_id_rrfEntries wv wk k vec kw e hmem
    have hperm : List.Perm ((sortByDesc Entry.score (rrfEntries wv wk k vec kw)).map Entry.id)
        ((rrfEntries wv wk k vec kw).map Entry.id) :=
      (sortByDesc_perm Entry.score _).map Entry.id
    refine ⟨?_, ?_, ?_⟩
    · rw [hids]
      exact hperm.nodup_iff.mpr (nodup_keys_rrfEntries wv wk k vec kw)
    · intro x
      rw [hids, hperm.mem_iff]
      exact mem_keys_rrfEntries wv wk k vec kw x
    · unfold rrfFusion
      rw [htake]
      rw [List.pairwise_map]
      exact sortByDesc_pairwise Entry.score _
  · rintro rfl rfl
    simp [rrfFusion, rrfEntries, addListFrom, sortByDesc]
  · unfold rrfFusion
    rw [List.length_map]
    exact le_trans (List.length_take_le _ _) (le_refl _)

/-- C2 witness: fusing a one-element vector list with a one-element
keyword list under `topK = 5` returns both ids, without duplicates,
sorted by fused score. -/
theorem rrf_fusion_complete_sorted_witness :
    ((rrfFusion (1 / 2) (1 / 2) 60 [⟨⟨"A", "a"⟩, 1, "vector"⟩]
        [⟨⟨"B", "b"⟩, 1, "keyword"⟩] 5).map (fun r => r.document.id)).Nodup ∧
    (∀ x, x ∈ (rrfFusion (1 / 2) (1 / 2) 60 [⟨⟨"A", "a"⟩, 1, "vector"⟩]
        [⟨⟨"B", "b"⟩, 1, "keyword"⟩] 5).map (fun r => r.document.id) ↔
      x ∈ ([⟨⟨"A", "a"⟩, 1, "vector"⟩, ⟨⟨"B", "b"⟩, 1, "keyword"⟩] :
        List SearchResult).map (fun r => r.document.id)) ∧
    (rrfFusion (1 / 2) (1 / 2) 60 [⟨⟨"A", "a"⟩, 1, "vector"⟩]
        [⟨⟨"B", "b"⟩, 1, "keyword"⟩] 5).Pairwise (fun a b => b.score ≤ a.score) ∧
    (rrfFusion (1 / 2) (1 / 2) 60 [⟨⟨"A", "a"⟩, 1, "vector"⟩]
        [⟨⟨"B", "b"⟩, 1, "keyword"⟩] 5).length ≤ 5 := by
  have h := rrf_fusion_complete_sorted (1 / 2) (1 / 2) 60 [⟨⟨"A", "a"⟩, 1, "vector"⟩]
    [⟨⟨"B", "b"⟩, 1, "keyword"⟩] 5
  have h1 := h.1 (by decide)
  exact ⟨h1.1, h1.2.1, h1.2.2, h.2.2⟩

/-- A word character of the regex `\b\w+\b` in
`KeywordSearchService._tokenize` (`keyword_search.py` line 47), modelled
over ASCII: letters, digits and underscore. -/
def isWordChar (c : Char) : Bool := c.isAlphanum || c = '_'

/-- Extraction of the maximal word-character runs of a character list —
the matches of `re.findall(r'\b\w+\b', text)`. `acc` holds the current
run reversed. -/
def wordRunsAux : List Char → List Char → List String
  | [], acc => if acc.isEmpty then [] else [String.mk acc.reverse]
  | c :: cs, acc =>
    if isWordChar c then wordRunsAux cs (c :: acc)
    else if acc.isEmpty then wordRunsAux cs []
    else String.mk acc.reverse :: wordRunsAux cs []

/-- The fixed stopword set of `KeywordSearchService._tokenize`
(`keyword_search.py` lines 50-54). -/
def stopwords : List String :=
  ["a", "an", "and", "are", "as", "at", "be", "by", "for",
   "from", "has", "he", "in", "is", "it", "its", "of", "on",
   "that", "the", "to", "was", "were", "will", "with"]

/-- `KeywordSearchService._tokenize` (`keyword_search.py` lines 33-57):
lowercase, extract word runs, drop tokens of length ≤ 1 and stopwords. -/
def tokenize (text : String) : List String :=
  (wordRunsAux (text.data.map Char.toLower) []).filter
    (fun t => 1 < t.length && !(stopwords.contains t))

/-- The persistent state of `KeywordSearchService`: the parallel lists
`self.documents` and `self.tokenized_corpus`, and whether `self.bm25`
holds a built index (`True`) or `None` (`False`). -/
structure KeywordState where
  documents : List Document
  tokenizedCorpus : List (List String)
  bm25 : Bool
  deriving DecidableEq, Repr

/-- The freshly initialized service (no index on disk): empty lists and
`self.bm25 = None`. -/
def initialKeywordState : KeywordState := ⟨[], [], false⟩

/-- `KeywordSearchService.add_documents` (`keyword_search.py` lines
114-139): early-return on an empty batch, otherwise append each document
and its tokenization and rebuild the BM25 index (present afterwards,
since the corpus is then non-empty). -/
def addDocuments (st : KeywordState) (docs : List Document) : KeywordState :=
  if docs.isEmpty then st
  else
    { documents := st.documents ++ docs,
      tokenizedCorpus := st.tokenizedCorpus ++ docs.map (fun d => tokenize d.content),
      bm25 := true }

/-- `KeywordSearchService.delete_documents` (`keyword_search.py` lines
202-227): early-return on an empty id list, otherwise keep the
document/tokenization pairs whose id is not being deleted, and rebuild
the BM25 index exactly when the remaining corpus is non-empty. -/
def deleteDocuments (st : KeywordState) (ids : List String) : KeywordState :=
  if ids.isEmpty then st
  else
    let kept := (st.documents.zip st.tokenizedCorpus).filter
      (fun p => !(ids.contains p.1.id))
    { documents := kept.map Prod.fst,
      tokenizedCorpus := kept.map Prod.snd,
      bm25 := !(kept.map Prod.snd).isEmpty }

/-- `KeywordSearchService.clear` (`keyword_search.py` lines 229-234). -/
def clear (_st : KeywordState) : KeywordState := ⟨[], [], false⟩

/-- A mutation of the keyword index. -/
inductive KeywordOp where
  | add (docs : List Document)
  | delete (ids : List String)
  | clearAll
  deriving Repr

def applyOp (st : KeywordState) (op : KeywordOp) : KeywordState :=
  match op with
  | .add docs => addDocuments st docs
  | .delete ids => deleteDocuments st ids
  | .clearAll => clear st

/-- The state after a sequence of mutations on a fresh service. -/
def applyOps (ops : List KeywordOp) : KeywordState :=
  ops.foldl applyOp initialKeywordState

/-- C10's invariant: documents and tokenized corpus have equal length,
the i-th tokenization is the tokenization of the i-th document's content,
and the BM25 structure is present exactly when the corpus is non-empty. -/
def kwInvariant (st : KeywordState) : Prop :=
  st.documents.length = st.tokenizedCorpus.length ∧
  (∀ i, (h1 : i < st.documents.length) → (h2 : i < st.tokenizedCorpus.length) →
    st.tokenizedCorpus.get ⟨i, h2⟩ = tokenize (st.documents.get ⟨i, h1⟩).content) ∧
  (st.bm25 = true ↔ st.tokenizedCorpus ≠ [])

/-- The strengthened representation invariant carried through the
induction: the corpus is literally the tokenization map of the documents. -/
def kwRep (st : KeywordState) : Prop :=
  st.tokenizedCorpus = st.documents.map (fun d => tokenize d.content) ∧
  (st.bm25 = true ↔ st.tokenizedCorpus ≠ [])

theorem zip_map_filter (docs : List Document) (ids : List String)
    (f : Document → List String) :
    (docs.zip (docs.map f)).filter (fun p => !(ids.contains p.1.id)) =
      (docs.filter (fun d => !(ids.contains d.id))).map (fun d => (d, f d)) := by
  induction docs with
  | nil => rfl
  | cons d rest ih =>
    by_cases h : d.id ∈ ids
    all_goals
      simp [List.filter_cons, h] at ih ⊢
      try exact ih

theorem kwRep_addDocuments (st : KeywordState) (docs : List Document)
    (hst : kwRep st) : kwRep (addDocuments st docs) := by
  unfold addDocuments
  by_cases h : docs.isEmpty = true
  · simpa [h] using hst
  · rw [if_neg h]
    constructor
    · simp [hst.1]
    · constructor
      · intro _
        intro hcontra
        have h2 := List.append_eq_nil.mp hcontra
        rw [List.map_eq_nil_iff] at h2
        rw [h2.2] at h
        simp at h
      · intro _
        rfl

theorem kwRep_deleteDocuments (st : KeywordState) (ids : List String)
    (hst : kwRep st) : kwRep (deleteDocuments st ids) := by
  unfold deleteDocuments
  by_cases h : ids.isEmpty = true
  · simpa [h] using hst
  · rw [if_neg h]
    rw [hst.1, zip_map_filter]
    constructor
    · simp [List.map_map, Function.comp]
    · simp [List.isEmpty_iff]

theorem kwRep_clear (st : KeywordState) : kwRep (clear st) := by
  constructor <;> simp [clear]

theorem kwRep_applyOp (st : KeywordState) (op : KeywordOp) (hst : kwRep st) :
    kwRep (applyOp st op) := by
  cases op with
  | add docs => exact kwRep_addDocuments st docs hst
  | delete ids => exact kwRep_deleteDocuments st ids hst
  | clearAll => exact kwRep_clear st

theorem kwRep_foldl (ops : List KeywordOp) (st : KeywordState) (hst : kwRep st) :
    kwRep (ops.foldl applyOp st) := by
  induction ops generalizing st with
  | nil => exact hst
  | cons op rest ih => exact ih _ (kwRep_applyOp st op hst)

theorem kwInvariant_of_kwRep (st : KeywordState) (hst : kwRep st) : kwInvariant st := by
  refine ⟨?_, ?_, hst.2⟩
  · rw [hst.1, List.length_map]
  · intro i h1 h2
    have hc := hst.1
    revert h2
    rw [hc]
    intro h2
    simp

/-- C10: after every sequence of `add_documents`, `delete_documents` and
`clear` operations on a fresh keyword index, the documents list and the
tokenized corpus have equal length, the i-th tokenization is the
tokenization of the i-th document's content, and the BM25 structure is
present exactly when the corpus is non-empty. -/
theorem keyword_index_invariant (ops : List KeywordOp) :
    kwInvariant (applyOps ops) := by
  apply kwInvariant_of_kwRep
  apply kwRep_foldl
  constructor <;> simp [initialKeywordState]

/-- Python `max(scores)` over a non-empty list (the `[]` case is
unreachable in `search`, where the corpus is non-empty). -/
def listMax : List ℚ → ℚ
  | [] => 0
  | [x] => x
  | x :: y :: rest => max x (listMax (y :: rest))

theorem le_listMax (l : List ℚ) : ∀ x ∈ l, x ≤ listMax l := by
  induction l with
  | nil => intro x hx; cases hx
  | cons a rest ih =>
    intro x hx
    cases rest with
    | nil =>
      simp only [List.mem_singleton] at hx
      subst hx
      exact le_refl _
    | cons b rest' =>
      rcases List.mem_cons.mp hx with rfl | hx
      · exact le_max_left _ _
      · exact le_trans (ih x hx) (le_max_right _ _)

theorem listMax_mem (l : List ℚ) (hl : l ≠ []) : listMax l ∈ l := by
  induction l with
  | nil => exact absurd rfl hl
  | cons a rest ih =>
    cases rest with
    | nil => simp [listMax]
    | cons b rest' =>
      rcases max_choice a (listMax (b :: rest')) with h | h
      · simp [listMax, h]
      · simp only [listMax, h]
        exact List.mem_cons_of_mem _ (ih (by simp))

theorem one_le_effTopK (topK : Option Nat) : 1 ≤ effTopK topK := by
  cases topK with
  | none => simp [effTopK]
  | some n =>
    simp only [effTopK]
    by_cases h : n = 0
    · simp [h]
    · simp [h]
      omega

/-- `KeywordSearchService.search` (`keyword_search.py` lines 141-185):
guard on a missing index or empty document list; tokenize the query and
return empty when no tokens survive; otherwise obtain BM25 scores from
the collaborator (`self.bm25.get_scores`, abstracted as `getScores`),
rank all indices by score descending (stably), truncate to the effective
`top_k`, keep only strictly positive scores and normalize each by the
maximum score (1 when the maximum is non-positive). -/
def kwSearch (st : KeywordState) (getScores : List String → List ℚ) (query : String)
    (topK : Option Nat) : List SearchResult :=
  let tk := effTopK topK
  if !st.bm25 || st.documents.isEmpty then []
  else
    let queryTokens := tokenize query
    if queryTokens.isEmpty then []
    else
      let scores := getScores queryTokens
      let topIndices := (sortByDesc (fun i => scores.getD i 0) (List.range scores.length)).take tk
      let maxScore := if 0 < listMax scores then listMax scores else 1
      topIndices.filterMap (fun idx =>
        if 0 < scores.getD idx 0 then
          some ⟨st.documents.getD idx defaultDoc, scores.getD idx 0 / maxScore, "keyword"⟩
        else none)

/-- C4: a query whose tokenization is empty (every word is a stopword or
has length ≤ 1) makes keyword search return the empty list, whatever the
index contents, the scorer and `topK`. -/
theorem keyword_search_empty_tokens (st : KeywordState)
    (getScores : List String → List ℚ) (query : String) (topK : Option Nat)
    (htok : tokenize query = []) :
    kwSearch st getScores query topK = [] := by
  unfold kwSearch
  by_cases h : (!st.bm25 || st.documents.isEmpty) = true
  · rw [if_pos h]
  · rw [if_neg h, htok]
    rfl

/-- C4 witness: on an index holding one document, the query
"the a is at i", made only of stopwords and length-1 words, tokenizes to
nothing and returns no results. -/
theorem keyword_search_empty_tokens_witness :
    tokenize "the a is at i" = [] ∧
    kwSearch ⟨[⟨"d1", "hello world"⟩], [["hello", "world"]], true⟩
      (fun _ => [1]) "the a is at i" none = [] := by
  exact ⟨by decide, keyword_search_empty_tokens _ _ _ _ (by decide)⟩

/-- C3: on a non-empty index whose BM25 scorer gives at least one document
a positive score (so the query has at least one token), keyword search
returns a non-empty list whose first result has score exactly 1, every
returned result has a strictly positive score, and every returned score is
the document's raw score divided by the maximum raw score. -/
theorem keyword_search_normalization (st : KeywordState)
    (getScores : List String → List ℚ) (query : String) (topK : Option Nat)
    (hinv : kwInvariant st) (hdocs : st.documents ≠ [])
    (htok : tokenize query ≠ [])
    (hlen : (getScores (tokenize query)).length = st.documents.length)
    (hpos : ∃ s ∈ getScores (tokenize query), 0 < s) :
    (∃ r rest, kwSearch st getScores query topK = r :: rest ∧ r.score = 1) ∧
    (∀ r ∈ kwSearch st getScores query topK,
      0 < r.score ∧
      ∃ i, i < (getScores (tokenize query)).length ∧
        r.score = (getScores (tokenize query)).getD i 0 / listMax (getScores (tokenize query)) ∧
        r.document = st.documents.getD i defaultDoc) := by
  have hb : st.bm25 = true := by
    apply hinv.2.2.mpr
    intro hc
    apply hdocs
    have h1 := hinv.1
    rw [hc] at h1
    simpa using List.eq_nil_of_length_eq_zero h1
  have hguard : (!st.bm25 || st.documents.isEmpty) = false := by
    rw [hb]
    simpa using hdocs
  have htok' : (tokenize query).isEmpty = false := by
    simpa using htok
  set scores := getScores (tokenize query) with hscores
  have hn : 0 < scores.length := by
    rw [hlen]
    exact List.length_pos.mpr hdocs
  have hsne : scores ≠ [] := List.length_pos.mp hn
  have hmaxpos : 0 < listMax scores := by
    obtain ⟨s, hs, hs0⟩ := hpos
    exact lt_of_lt_of_le hs0 (le_listMax scores s hs)
  have hrange : List.range scores.length ≠ [] := by
    simpa [List.range_eq_nil] using Nat.pos_iff_ne_zero.mp hn
  obtain ⟨i0, rest0, hsplit⟩ :
      ∃ i0 rest0, sortByDesc (fun i => scores.getD i 0) (List.range scores.length) =
        i0 :: rest0 := by
    cases hcase : sortByDesc (fun i => scores.getD i 0) (List.range scores.length) with
    | nil => exact absurd hcase (sortByDesc_ne_nil _ _ hrange)
    | cons a l => exact ⟨a, l, rfl⟩
  have hi0mem : i0 ∈ List.range scores.length := by
    have : i0 ∈ sortByDesc (fun i => scores.getD i 0) (List.range scores.length) := by
      rw [hsplit]
      exact List.mem_cons_self _ _
    exact (sortByDesc_perm _ _).subset this
  have hi0lt : i0 < scores.length := List.mem_range.mp hi0mem
  have hi0max : scores.getD i0 0 = listMax scores := by
    have hmem := listMax_mem scores hsne
    obtain ⟨⟨j, hj⟩, hget⟩ := List.mem_iff_get.mp hmem
    have h1 : scores.getD j 0 = listMax scores := by
      rw [List.getD_eq_get scores 0 hj]
      exact hget
    have h2 : scores.getD j 0 ≤ scores.getD i0 0 :=
      sortByDesc_head_max _ _ _ _ hsplit j (List.mem_range.mpr hj)
    have h3 : scores.getD i0 0 ≤ listMax scores := by
      rw [List.getD_eq_get scores 0 hi0lt]
      exact le_listMax scores _ (List.get_mem scores i0 hi0lt)
    rw [h1] at h2
    exact le_antisymm h3 h2
  obtain ⟨m, hm⟩ : ∃ m, effTopK topK = m + 1 := by
    have := one_le_effTopK topK
    cases h : effTopK topK with
    | zero => rw [h] at this; omega
    | succ m => exact ⟨m, rfl⟩
  have hout : kwSearch st getScores query topK =
      (i0 :: rest0.take m).filterMap (fun idx =>
        if 0 < scores.getD idx 0 then
          some ⟨st.documents.getD idx defaultDoc, scores.getD idx 0 / listMax scores, "keyword"⟩
        else none) := by
    unfold kwSearch
    rw [hguard]
    simp only [Bool.false_eq_true, if_false]
    rw [htok']
    simp only [Bool.false_eq_true, if_false, ← hscores]
    rw [hm, hsplit, List.take_succ_cons, if_pos hmaxpos]
  rw [hout]
  constructor
  · have hcons : (i0 :: rest0.take m).filterMap (fun idx =>
        if 0 < scores.getD idx 0 then
          some ⟨st.documents.getD idx defaultDoc, scores.getD idx 0 / listMax scores, "keyword"⟩
        else none) =
        (⟨st.documents.getD i0 defaultDoc, scores.getD i0 0 / listMax scores, "keyword"⟩ :
          SearchResult) :: (rest0.take m).filterMap (fun idx =>
        if 0 < scores.getD idx 0 then
          some ⟨st.documents.getD idx defaultDoc, scores.getD idx 0 / listMax scores, "keyword"⟩
        else none) := by
      rw [List.filterMap_cons, if_pos (by rw [hi0max]; exact hmaxpos)]
    refine ⟨_, _, hcons, ?_⟩
    show scores.getD i0 0 / listMax scores = 1
    rw [hi0max]
    exact div_self (ne_of_gt hmaxpos)
  · intro r hr
    rw [List.mem_filterMap] at hr
    obtain ⟨idx, hidx, heq⟩ := hr
    by_cases hposidx : 0 < scores.getD idx 0
    · rw [if_pos hposidx] at heq
      have hidxlt : idx < scores.length := by
        have h1 : idx ∈ sortByDesc (fun i => scores.getD i 0) (List.range scores.length) := by
          rw [hsplit]
          rcases List.mem_cons.mp hidx with rfl | hidx'
          · exact List.mem_cons_self _ _
          · exact List.mem_cons_of_mem _ (List.take_subset m rest0 hidx')
        exact List.mem_range.mp ((sortByDesc_perm _ _).subset h1)
      cases heq
      exact ⟨div_pos hposidx hmaxpos, idx, hidxlt, rfl, rfl⟩
    · rw [if_neg hposidx] at heq
      cases heq

/-- C3 witness: index of two documents, BM25 scores `[2, 1]`: the top
result scores exactly 1, both results have positive normalized scores
`2/2` and `1/2`. -/
theorem keyword_search_normalization_witness :
    (∃ r rest, kwSearch ⟨[⟨"d1", "alpha beta"⟩, ⟨"d2", "alpha gamma"⟩],
        [["alpha", "beta"], ["alpha", "gamma"]], true⟩
        (fun _ => [2, 1]) "alpha" none = r :: rest ∧ r.score = 1) ∧
    (∀ r ∈ kwSearch ⟨[⟨"d1", "alpha beta"⟩, ⟨"d2", "alpha gamma"⟩],
        [["alpha", "beta"], ["alpha", "gamma"]], true⟩
        (fun _ => [2, 1]) "alpha" none,
      0 < r.score ∧
      ∃ i, i < ((fun (_ : List String) => [(2 : ℚ), 1]) (tokenize "alpha")).length ∧
        r.score = ((fun (_ : List String) => [(2 : ℚ), 1]) (tokenize "alpha")).getD i 0 /
          listMax ((fun (_ : List String) => [(2 : ℚ), 1]) (tokenize "alpha")) ∧
        r.document = ([⟨"d1", "alpha beta"⟩, ⟨"d2", "alpha gamma"⟩] :
          List Document).getD i defaultDoc) := by
  apply keyword_search_normalization
    ⟨[⟨"d1", "alpha beta"⟩, ⟨"d2", "alpha gamma"⟩],
      [["alpha", "beta"], ["alpha", "gamma"]], true⟩
    (fun _ => [2, 1]) "alpha" none
  · exact kwInvariant_of_kwRep _ ⟨by decide, by simp⟩
  · decide
  · decide
  · decide
  · exact ⟨2, by simp, by norm_num⟩

/-- `RerankerService.rerank` (`reranker.py` lines 39-85): default the
truncation (`top_k or config.TOP_K_RERANK`), return `[]` on no results,
return `results[:top_k]` untouched when at most one candidate (without
calling the cross-encoder, abstracted as `predictScores`), otherwise score
all (query, content) pairs, sort descending by cross-encoder score
(stably) and emit the top `top_k` with the model score and tag
"reranked". -/
def rerank (predictScores : List (String × String) → List ℚ) (query : String)
    (results : List SearchResult) (topK : Option Nat) : List SearchResult :=
  let tk := effTopKRerank topK
  if results.isEmpty then []
  else if results.length ≤ 1 then results.take tk
  else
    let pairs := results.map (fun r => (query, r.document.content))
    let scores := predictScores pairs
    let scored := results.zip scores
    ((sortByDesc (fun p => p.2) scored).take tk).map
      (fun p => ⟨p.1.document, p.2, "reranked"⟩)

/-- C5: for any `topK ≥ 1`, reranking an empty candidate list yields the
empty list, and reranking a single candidate returns it unchanged — same
document, same score — for every possible cross-encoder (the model is
never consulted). -/
theorem rerank_degenerate (predictScores : List (String × String) → List ℚ)
    (query : String) (r : SearchResult) (n : Nat) (hn : 1 ≤ n) :
    rerank predictScores query [] (some n) = [] ∧
    rerank predictScores query [r] (some n) = [r] := by
  constructor
  · rfl
  · unfold rerank
    have h1 : effTopKRerank (some n) = n := by
      simp only [effTopKRerank]
      rw [if_neg (by omega)]
    rw [h1]
    simp only [List.isEmpty_cons, Bool.false_eq_true, if_false, List.length_singleton,
      le_refl, if_true]
    cases n with
    | zero => omega
    | succ m => simp [List.take_succ_cons]

/-- C5 witness: reranking with `topK = 1` on the empty list and on a
single concrete candidate, under a cross-encoder that would rescore
everything to 0 if it were consulted. -/
theorem rerank_degenerate_witness :
    rerank (fun ps => ps.map (fun _ => 0)) "q" [] (some 1) = [] ∧
    rerank (fun ps => ps.map (fun _ => 0)) "q" [⟨⟨"d", "text"⟩, 3 / 4, "hybrid"⟩]
      (some 1) = [⟨⟨"d", "text"⟩, 3 / 4, "hybrid"⟩] :=
  rerank_degenerate (fun ps => ps.map (fun _ => 0)) "q"
    ⟨⟨"d", "text"⟩, 3 / 4, "hybrid"⟩ 1 (by decide)

/-- The collaborators and configuration a `HybridSearchService` instance
holds: the vector index search, the keyword index search (both abstracted
as query/topK functions) and the normalized weights and RRF constant. -/
structure SearchEnv where
  vectorSearchFn : String → Nat → List SearchResult
  keywordSearchFn : String → Nat → List SearchResult
  vectorWeight : ℚ
  keywordWeight : ℚ
  rrfK : ℚ

/-- `HybridSearchService.search` (`hybrid_search.py` lines 70-114):
default `top_k`, over-fetch `top_k * 2` from each enabled index, return
one side truncated when the other is disabled, otherwise fuse with RRF. -/
def hybridSearch (env : SearchEnv) (query : String) (topK : Option Nat)
    (useVector useKeyword : Bool) : List SearchResult :=
  let tk := effTopK topK
  let vectorResults := if useVector then env.vectorSearchFn query (tk * 2) else []
  let keywordResults := if useKeyword then env.keywordSearchFn query (tk * 2) else []
  if useVector = false then keywordResults.take tk
  else if useKeyword = false then vectorResults.take tk
  else rrfFusion env.vectorWeight env.keywordWeight env.rrfK vectorResults keywordResults tk

/-- The accumulation loop of
`HybridSearchService._multi_query_rrf_fusion` (`hybrid_search.py` lines
287-294): each query's result list contributes with uniform weight. -/
def multiRRFEntries (qw k : ℚ) (lists : List (List SearchResult)) : List Entry :=
  lists.foldl (fun m l => addListFrom qw k 1 l m) []

/-- `HybridSearchService._multi_query_rrf_fusion` (`hybrid_search.py`
lines 262-312): uniform weight `1/N` over the `N` per-query lists, sort
by fused score descending, truncate to `topK`, tag
"multi_query_hybrid". -/
def multiQueryRRFFusion (k : ℚ) (lists : List (List SearchResult)) (topK : Nat) :
    List SearchResult :=
  let qw := 1 / (lists.length : ℚ)
  ((sortByDesc Entry.score (multiRRFEntries qw k lists)).take topK).map
    (fun e => ⟨e.doc, e.score, "multi_query_hybrid"⟩)

/-- `HybridSearchService.multi_query_search` (`hybrid_search.py` lines
214-260): default `top_k`; `[]` on no queries; delegate to `search` for a
single query; otherwise run the hybrid search per query with `top_k * 2`,
drop empty result lists, return `[]` if all were empty, else fuse across
queries. -/
def multiQuerySearch (env : SearchEnv) (queries : List String) (topK : Option Nat) :
    List SearchResult :=
  let tk := effTopK topK
  match queries with
  | [] => []
  | [q] => hybridSearch env q (some tk) true true
  | _ =>
    let allQueryResults := (queries.map
      (fun q => hybridSearch env q (some (tk * 2)) true true)).filter (fun l => !l.isEmpty)
    if allQueryResults.isEmpty then []
    else multiQueryRRFFusion env.rrfK allQueryResults tk

theorem effTopK_idem (topK : Option Nat) : effTopK (some (effTopK topK)) = effTopK topK := by
  cases topK with
  | none => rfl
  | some n =>
    simp only [effTopK]
    by_cases h : n = 0
    · simp [h]
    · rw [if_neg h, if_neg h]

/-- C6: multi-query search on the singleton query list `[q]` returns
exactly what the single-query hybrid search returns for `q` with the same
`topK`, for every environment. -/
theorem multi_query_singleton_delegates (env : SearchEnv) (q : String)
    (topK : Option Nat) :
    multiQuerySearch env [q] topK = hybridSearch env q topK true true := by
  show hybridSearch env q (some (effTopK topK)) true true = hybridSearch env q topK true true
  unfold hybridSearch
  rw [effTopK_idem]

/-- C9: disabling both the vector and the keyword index makes the
orchestrator's search return the empty list, for every environment, query
and `topK` — neither index function is consulted. -/
theorem search_both_disabled_empty (env : SearchEnv) (query : String)
    (topK : Option Nat) :
    hybridSearch env query topK false false = [] := by
  unfold hybridSearch
  simp

/-- Python slicing `xs[:k]` for an `int` bound `k`
(`llm.py` line 439 uses `similar_queries[:num_queries - 1]`): a
non-negative bound takes the first `k` elements; a negative bound drops
the last `-k` (clamping at the empty list). -/
def pyTake (k : Int) (xs : List α) : List α :=
  if 0 ≤ k then xs.take k.toNat else xs.take (xs.length - (-k).toNat)

/-- Python `str.strip()` on a character list: drop whitespace at both
ends. -/
def stripChars (cs : List Char) : List Char :=
  ((cs.dropWhile Char.isWhitespace).reverse.dropWhile Char.isWhitespace).reverse

/-- Python `str.split('\n')`: split at every newline, keeping empty
segments. `acc` holds the current segment reversed. -/
def splitNL : List Char → List Char → List (List Char)
  | [], acc => [acc.reverse]
  | c :: cs, acc => if c = '\n' then acc.reverse :: splitNL cs [] else splitNL cs (c :: acc)

/-- The leading enumeration characters stripped from each generated line
(`llm.py` line 434: `line.lstrip('0123456789.-)*• ')`). -/
def enumMarkers : List Char :=
  ['0', '1', '2', '3', '4', '5', '6', '7', '8', '9', '.', '-', ')', '*', '•', ' ']

/-- The parsing loop of `LLMService.generate_similar_queries`
(`llm.py` lines 429-436): split the stripped response into lines, strip
each line, strip leading enumeration markers, and keep it when non-empty
with length above 5. -/
def parseVariants (response : String) : List String :=
  (splitNL (stripChars response.data) []).filterMap (fun lineCs =>
    let l := (stripChars lineCs).dropWhile (fun c => enumMarkers.contains c)
    if l ≠ [] ∧ 5 < l.length then some (String.mk l) else none)

/-- `LLMService.generate_similar_queries` (`llm.py` lines 396-447): the
LLM collaborator either raises (modelled `Except.error`) — then only the
original query is returned — or returns a response whose parsed variants,
truncated to `num_queries - 1` by Python slicing, follow the original
query. -/
def generateSimilarQueries (gen : Except String String) (query : String)
    (numQueries : Int) : List String :=
  match gen with
  | .error _ => [query]
  | .ok response => query :: pyTake (numQueries - 1) (parseVariants response)

theorem parseVariants_length (response : String) :
    ∀ v ∈ parseVariants response, 5 < v.length := by
  intro v hv
  rw [parseVariants, List.mem_filterMap] at hv
  obtain ⟨lineCs, _, heq⟩ := hv
  by_cases hc : ((stripChars lineCs).dropWhile (fun c => enumMarkers.contains c)) ≠ [] ∧
      5 < ((stripChars lineCs).dropWhile (fun c => enumMarkers.contains c)).length
  · rw [if_pos hc] at heq
    cases heq
    exact hc.2
  · rw [if_neg hc] at heq
    cases heq

/-- C7 (amended with `N ≥ 1`): on generation failure the result is
exactly `[query]`; on success the original query is the first element,
the result has at most `N` entries, and every generated variant is one of
the parsed lines — non-empty after stripping enumeration markers, with
length above 5. (For `N = 0` Python's `[:N-1]` slice is `[:-1]`, which
keeps all but the last variant instead of none — see the
counterexample.) -/
theorem generate_similar_queries_contract (query response e : String) (n : Int)
    (hn : 1 ≤ n) :
    generateSimilarQueries (.error e) query n = [query] ∧
    (generateSimilarQueries (.ok response) query n).head? = some query ∧
    (generateSimilarQueries (.ok response) query n).length ≤ n.toNat ∧
    ∀ v ∈ (generateSimilarQueries (.ok response) query n).tail,
      v ∈ parseVariants response ∧ 5 < v.length := by
  refine ⟨rfl, rfl, ?_, ?_⟩
  · show (query :: pyTake (n - 1) (parseVariants response)).length ≤ n.toNat
    rw [List.length_cons, pyTake, if_pos (by omega)]
    have h1 : (List.take (n - 1).toNat (parseVariants response)).length ≤ (n - 1).toNat := by
      rw [List.length_take]
      omega
    omega
  · intro v hv
    have hv' : v ∈ parseVariants response := by
      show v ∈ parseVariants response
      have h1 : v ∈ pyTake (n - 1) (parseVariants response) := hv
      rw [pyTake] at h1
      by_cases h : (0 : Int) ≤ n - 1
      · rw [if_pos h] at h1
        exact List.take_subset _ _ h1
      · rw [if_neg h] at h1
        exact List.take_subset _ _ h1
    exact ⟨hv', parseVariants_length response v hv'⟩

/-- C7 counterexample to the claim at `N = 0`: Python evaluates
`similar_queries[:-1]`, keeping the first of the two parsed variants, so
the result has 2 entries — more than `N = 0` (and more than the claimed
`N - 1 = -1` generated variants). -/
theorem generate_similar_queries_counterexample :
    generateSimilarQueries (.ok "abcdefgh\nijklmnopq") "q" 0 = ["q", "abcdefgh"] ∧
    ¬((generateSimilarQueries (.ok "abcdefgh\nijklmnopq") "q" 0).length ≤ (0 : Int).toNat) := by
  decide

/-- C7 witness: `N = 3`, a response with three lines of which the second
is too short: the failure branch returns only the query, the success
branch starts with the query, has at most 3 entries, and
"2. first variant okay" survives parsing as "first variant okay". -/
theorem generate_similar_queries_contract_witness :
    generateSimilarQueries (.error "boom") "q" 3 = ["q"] ∧
    (generateSimilarQueries (.ok "2. first variant okay\nshort\n- second variant okay")
      "q" 3).head? = some "q" ∧
    (generateSimilarQueries (.ok "2. first variant okay\nshort\n- second variant okay")
      "q" 3).length ≤ (3 : Int).toNat ∧
    ("first variant okay" ∈
        parseVariants "2. first variant okay\nshort\n- second variant okay" ∧
      5 < ("first variant okay" : String).length) := by
  have h := generate_similar_queries_contract "q"
    "2. first variant okay\nshort\n- second variant okay" "boom" 3 (by decide)
  exact ⟨h.1, h.2.1, h.2.2.1, h.2.2.2 "first variant okay" (by decide)⟩

/-- The weight normalization of `HybridSearchService.__init__`
(`hybrid_search.py` lines 40-43): divide each configured weight by their
sum. When the sum is zero Python raises `ZeroDivisionError` and no
weights are stored, modelled as `none`. -/
def normalizeWeights (vectorWeight keywordWeight : ℚ) : Option (ℚ × ℚ) :=
  if vectorWeight + keywordWeight = 0 then none
  else some (vectorWeight / (vectorWeight + keywordWeight),
    keywordWeight / (vectorWeight + keywordWeight))

/-- C8 (amended): for every pair of configured weights whose sum is
non-zero, construction stores weights summing to exactly 1. (The claim's
"regardless of the input values" fails: a zero-sum pair makes the
constructor raise `ZeroDivisionError` instead of storing weights — see
the counterexample.) -/
theorem weights_normalized (vw kw : ℚ) (h : vw + kw ≠ 0) :
    ∃ p : ℚ × ℚ, normalizeWeights vw kw = some p ∧ p.1 + p.2 = 1 := by
  refine ⟨(vw / (vw + kw), kw / (vw + kw)), ?_, ?_⟩
  · rw [normalizeWeights, if_neg h]
  · show vw / (vw + kw) + kw / (vw + kw) = 1
    rw [div_add_div_same]
    exact div_self h

/-- C8 counterexample to the claim as stated: with both configured
weights 0 (sum 0), the constructor divides by zero and stores nothing —
no stored pair sums to 1. -/
theorem weights_normalized_counterexample :
    normalizeWeights 0 0 = none ∧
    ¬∃ p : ℚ × ℚ, normalizeWeights 0 0 = some p ∧ p.1 + p.2 = 1 := by
  constructor
  · rw [normalizeWeights, if_pos (by norm_num)]
  · rintro ⟨p, hp, _⟩
    rw [normalizeWeights, if_pos (by norm_num)] at hp
    cases hp

/-- C8 witness: configured weights 3 and 1 are stored as 3/4 and 1/4,
which sum to 1. -/
theorem weights_normalized_witness :
    ∃ p : ℚ × ℚ, normalizeWeights 3 1 = some p ∧ p.1 + p.2 = 1 :=
  weights_normalized 3 1 (by norm_num)

end InfoFinder
